import Mathlib

set_option maxHeartbeats 1000000
set_option maxRecDepth 4000

/-! Verification of the Kuhn-poker CFR trainer (src/kuhn.rs, src/cfr.rs).
Floating point values (f64) are modelled by exact rationals, HashMaps by
functions into Option, and panicking lookups (unwrap) by Option-valued
functions. -/

namespace KuhnCFR

/-- Betting actions of Kuhn poker (src/kuhn.rs, enum Action). -/
inductive Action where
  | Check
  | Bet
  | Call
  | Fold
deriving DecidableEq, Repr

/-- Display name of an action (src/kuhn.rs, impl fmt::Display for Action). -/
def Action.to_string : Action → String
  | .Check => "Check"
  | .Bet => "Bet"
  | .Call => "Call"
  | .Fold => "Fold"

instance actionForallDecidable (P : Action → Prop) [DecidablePred P] :
    Decidable (∀ a : Action, P a) :=
  decidable_of_iff (P .Check ∧ P .Bet ∧ P .Call ∧ P .Fold)
    (by
      constructor
      · rintro ⟨h1, h2, h3, h4⟩ a
        cases a <;> assumption
      · intro h
        exact ⟨h _, h _, h _, h _⟩)

instance : Fintype Action where
  elems := {Action.Check, Action.Bet, Action.Call, Action.Fold}
  complete := by intro a; cases a <;> simp

/-- Action history of one hand (src/kuhn.rs, struct History). -/
structure History where
  actions : List Action
deriving DecidableEq, Repr

/-- Fresh empty history (src/kuhn.rs, History::new). -/
def History.new : History := { actions := [] }

/-- Append an action (src/kuhn.rs, History::add / Vec::push). -/
def History.add (h : History) (a : Action) : History :=
  { actions := h.actions ++ [a] }

/-- Join the action names with a dash (src/kuhn.rs, History::to_string). -/
def History.to_string (h : History) : String :=
  String.intercalate "-" (h.actions.map Action.to_string)

/-- The two players (src/kuhn.rs, enum Player). -/
inductive Player where
  | Player1
  | Player2
deriving DecidableEq, Repr

/-- The opposite player (src/kuhn.rs, Player::other). -/
def Player.other : Player → Player
  | .Player1 => .Player2
  | .Player2 => .Player1

/-- Game state (src/kuhn.rs, struct GameState). -/
structure GameState where
  history : History
  current_player : Player
  terminal : Bool
deriving DecidableEq, Repr

/-- Initial state (src/kuhn.rs, GameState::new). -/
def GameState.new : GameState :=
  { history := History.new, current_player := Player.Player1, terminal := false }

/-- Legal actions of a state (src/kuhn.rs, GameState::legal_actions). -/
def GameState.legal_actions (s : GameState) : List Action :=
  if s.terminal then []
  else
    match s.history.actions with
    | [] => [Action.Check, Action.Bet]
    | [Action.Check] => [Action.Check, Action.Bet]
    | [Action.Check, Action.Bet] => [Action.Call, Action.Fold]
    | [Action.Bet] => [Action.Call, Action.Fold]
    | _ => []

/-- Successor state (src/kuhn.rs, GameState::next_state): extend a copy of the
history, flip the player, and mark terminal when the new history matches one of
the five terminal sequences. -/
def GameState.next_state (s : GameState) (a : Action) : GameState :=
  let new_history := s.history.add a
  let next : GameState :=
    { history := new_history, current_player := s.current_player.other, terminal := false }
  match next.history.actions with
  | [Action.Check, Action.Check] | [Action.Bet, Action.Fold]
  | [Action.Check, Action.Bet, Action.Fold] | [Action.Bet, Action.Call]
  | [Action.Check, Action.Bet, Action.Call] => { next with terminal := true }
  | _ => next

/-- Action-keyed map of f64 values, modelled as a function into Option
(src/cfr.rs, HashMap of Action to f64). -/
abbrev AMap := Action → Option ℚ

/-- Empty map (HashMap::new). -/
def AMap.empty : AMap := fun _ => none

/-- Map update (HashMap::insert). -/
def AMap.insert (m : AMap) (a : Action) (v : ℚ) : AMap :=
  fun b => if b = a then some v else m b

/-- CFR node of one information set (src/cfr.rs, struct CFRNode). -/
structure CFRNode where
  regret_sum : AMap
  strategy_sum : AMap
  actions : List Action

/-- Fresh zero-initialized node (src/cfr.rs, CFRNode::new). -/
def CFRNode.new (actions : List Action) : CFRNode :=
  { regret_sum := actions.foldl (fun m a => AMap.insert m a 0) AMap.empty,
    strategy_sum := actions.foldl (fun m a => AMap.insert m a 0) AMap.empty,
    actions := actions }

/-- First loop of CFRNode::get_strategy (src/cfr.rs lines 40-44): sum the
positive parts of the accumulated regrets, unwrapping each lookup. -/
def posRegretSum (rs : AMap) (acts : List Action) (acc : ℚ) : Option ℚ :=
  match acts with
  | [] => some acc
  | a :: rest =>
    match rs a with
    | none => none
    | some regret => posRegretSum rs rest (acc + max regret 0)

/-- Second loop of CFRNode::get_strategy (src/cfr.rs lines 47-56): proportional
to positive regret when the normalizing sum is positive, else uniform. -/
def strategyLoop (n : CFRNode) (normalizingSum : ℚ) (acts : List Action)
    (strategy : AMap) : Option AMap :=
  match acts with
  | [] => some strategy
  | a :: rest =>
    if normalizingSum > 0 then
      match n.regret_sum a with
      | none => none
      | some regret =>
        strategyLoop n normalizingSum rest
          (AMap.insert strategy a (max regret 0 / normalizingSum))
    else
      strategyLoop n normalizingSum rest
        (AMap.insert strategy a (1 / (n.actions.length : ℚ)))

/-- Regret-matching strategy (src/cfr.rs, CFRNode::get_strategy). -/
def CFRNode.get_strategy (n : CFRNode) : Option AMap :=
  match posRegretSum n.regret_sum n.actions 0 with
  | none => none
  | some normalizingSum => strategyLoop n normalizingSum n.actions AMap.empty

/-- First loop of CFRNode::get_average_strategy (src/cfr.rs lines 68-70). -/
def strategySumTotal (ss : AMap) (acts : List Action) (acc : ℚ) : Option ℚ :=
  match acts with
  | [] => some acc
  | a :: rest =>
    match ss a with
    | none => none
    | some v => strategySumTotal ss rest (acc + v)

/-- Second loop of CFRNode::get_average_strategy (src/cfr.rs lines 73-81). -/
def avgLoop (n : CFRNode) (normalizingSum : ℚ) (acts : List Action)
    (avgStrategy : AMap) : Option AMap :=
  match acts with
  | [] => some avgStrategy
  | a :: rest =>
    if normalizingSum > 0 then
      match n.strategy_sum a with
      | none => none
      | some v =>
        avgLoop n normalizingSum rest (AMap.insert avgStrategy a (v / normalizingSum))
    else
      avgLoop n normalizingSum rest
        (AMap.insert avgStrategy a (1 / (n.actions.length : ℚ)))

/-- Time-averaged strategy (src/cfr.rs, CFRNode::get_average_strategy). -/
def CFRNode.get_average_strategy (n : CFRNode) : Option AMap :=
  match strategySumTotal n.strategy_sum n.actions 0 with
  | none => none
  | some normalizingSum => avgLoop n normalizingSum n.actions AMap.empty

/-- Information-set store (src/cfr.rs, type InfoSetMap). -/
abbrev InfoSetMap := String → Option CFRNode

/-- Empty store (InfoSetMap::new). -/
def InfoSetMap.empty : InfoSetMap := fun _ => none

/-- Store update (HashMap::insert). -/
def InfoSetMap.insert (m : InfoSetMap) (k : String) (v : CFRNode) : InfoSetMap :=
  fun x => if x = k then some v else m x

/-- Information-set key (src/cfr.rs, make_info_set_key). -/
def make_info_set_key (card : Char) (history : String) : String :=
  if history.isEmpty then card.toString else card.toString ++ "-" ++ history

/-- The three cards (src/cfr.rs, enum Card). -/
inductive Card where
  | Jack
  | Queen
  | King
deriving DecidableEq, Repr

/-- Character of a card (src/cfr.rs, Card::to_char). -/
def Card.to_char : Card → Char
  | .Jack => 'J'
  | .Queen => 'Q'
  | .King => 'K'

/-- Numeric rank of a card (src/cfr.rs, Card::rank; discriminants J=11, Q=12,
K=13). -/
def Card.rank : Card → ℤ
  | .Jack => 11
  | .Queen => 12
  | .King => 13

/-- Terminal payoff from Player1's perspective (src/cfr.rs, get_payoff). -/
def get_payoff (card1 card2 : Card) (history : String) : ℤ :=
  match history with
  | "Check-Check" => if card1.rank > card2.rank then 1 else -1
  | "Bet-Fold" => 1
  | "Check-Bet-Fold" => -1
  | "Bet-Call" => if card1.rank > card2.rank then 2 else -2
  | "Check-Bet-Call" => if card1.rank > card2.rank then 2 else -2
  | _ => 0

/-- Acting player's private card (src/cfr.rs, cfr lines 195-198). -/
def currentCard (s : GameState) (card1 card2 : Card) : Card :=
  match s.current_player with
  | Player.Player1 => card1
  | Player.Player2 => card2

/-- Information-set key of the acting player (src/cfr.rs, cfr line 199). -/
def infoKeyOf (s : GameState) (card1 card2 : Card) : String :=
  make_info_set_key (currentCard s card1 card2).to_char s.history.to_string

/-- Create the node when the key is absent (src/cfr.rs, cfr lines 205-207). -/
def ensureNode (infoSets : InfoSetMap) (key : String) (actions : List Action) : InfoSetMap :=
  if (infoSets key).isSome then infoSets
  else InfoSetMap.insert infoSets key (CFRNode.new actions)

/-- Regret and strategy accumulation loop (src/cfr.rs, cfr lines 233-242):
for each action, add the instantaneous regret to regret_sum and the current
strategy probability to strategy_sum, unwrapping every lookup. -/
def updateNode (node : CFRNode) (acts : List Action) (actionValues : AMap)
    (nodeValue : ℚ) (strategy : AMap) : Option CFRNode :=
  match acts with
  | [] => some node
  | a :: rest =>
    match actionValues a with
    | none => none
    | some actionValue =>
      match node.regret_sum a with
      | none => none
      | some oldRegret =>
        match node.strategy_sum a with
        | none => none
        | some oldStrat =>
          match strategy a with
          | none => none
          | some prob =>
            updateNode
              { node with
                regret_sum := AMap.insert node.regret_sum a (oldRegret + (actionValue - nodeValue)),
                strategy_sum := AMap.insert node.strategy_sum a (oldStrat + prob) }
              rest actionValues nodeValue strategy

mutual

/-- CFR recursion (src/cfr.rs, cfr lines 181-249). The returned Option models
the possibility of a panicking unwrap; the pair carries the Player1-perspective
value and the updated information-set store. -/
def cfr (s : GameState) (card1 card2 : Card) (infoSets : InfoSetMap) :
    Option (ℚ × InfoSetMap) :=
  if s.terminal then
    some (((get_payoff card1 card2 s.history.to_string : ℤ) : ℚ), infoSets)
  else
    let key := infoKeyOf s card1 card2
    let actions := s.legal_actions
    let infoSets1 := ensureNode infoSets key actions
    match infoSets1 key with
    | none => none
    | some node =>
      match node.get_strategy with
      | none => none
      | some strategy =>
        match cfrLoop s card1 card2 strategy actions (fun _ hb => hb) AMap.empty 0 infoSets1 with
        | none => none
        | some (actionValues, nodeValue, infoSets2) =>
          match infoSets2 key with
          | none => none
          | some node2 =>
            match updateNode node2 actions actionValues nodeValue strategy with
            | none => none
            | some node3 =>
              some ((match s.current_player with
                     | Player.Player1 => nodeValue
                     | Player.Player2 => -nodeValue),
                    InfoSetMap.insert infoSets2 key node3)
termination_by (3 - s.history.actions.length) * 4 + 3
decreasing_by
  have hlen : s.legal_actions.length ≤ 2 := by
    unfold GameState.legal_actions
    split
    · simp
    · split <;> simp
  simp only [gt_iff_lt]
  omega

/-- Per-action value loop of cfr (src/cfr.rs, cfr lines 217-229): recurse into
each child, flip the sign for Player2, record the own-perspective action value
and accumulate the strategy-weighted node value. The hsub argument only bounds
the recursion depth. -/
def cfrLoop (s : GameState) (card1 card2 : Card) (strategy : AMap)
    (acts : List Action) (hsub : ∀ b ∈ acts, b ∈ s.legal_actions)
    (actionValues : AMap) (nodeValue : ℚ) (infoSets : InfoSetMap) :
    Option (AMap × ℚ × InfoSetMap) :=
  match acts with
  | [] => some (actionValues, nodeValue, infoSets)
  | a :: rest =>
    match cfr (s.next_state a) card1 card2 infoSets with
    | none => none
    | some (actionValue, infoSets') =>
      let value := match s.current_player with
        | Player.Player1 => actionValue
        | Player.Player2 => -actionValue
      match strategy a with
      | none => none
      | some prob =>
        cfrLoop s card1 card2 strategy rest (fun b hb => hsub b (List.mem_cons_of_mem a hb))
          (AMap.insert actionValues a value) (nodeValue + prob * value) infoSets'
termination_by (3 - s.history.actions.length) * 4 + acts.length
decreasing_by
  · have hmem : a ∈ s.legal_actions := hsub a (List.mem_cons_self a rest)
    have hlen2 : s.history.actions.length ≤ 2 := by
      revert hmem
      unfold GameState.legal_actions
      split
      · simp
      · rcases hl : s.history.actions with _ | ⟨x, _ | ⟨y, _ | ⟨z, t⟩⟩⟩ <;> simp [hl]
    have hnext : (s.next_state a).history.actions = s.history.actions ++ [a] := by
      simp only [GameState.next_state, History.add]
      split <;> rfl
    simp only [hnext, List.length_append, List.length_cons]
    omega
  · simp only [List.length_cons]
    omega

end

/-- Non-terminal state with the given history and player to act; helper for
stating reachability facts. -/
def mkState (h : List Action) (p : Player) : GameState :=
  { history := { actions := h }, current_player := p, terminal := false }

/-- The five terminal histories recognized by next_state (src/kuhn.rs). -/
def terminalHistories : List (List Action) :=
  [[Action.Check, Action.Check], [Action.Bet, Action.Fold],
   [Action.Check, Action.Bet, Action.Fold], [Action.Bet, Action.Call],
   [Action.Check, Action.Bet, Action.Call]]

/-- States reachable from GameState.new by next_state steps on legal actions. -/
inductive Reachable : GameState → Prop where
  | base : Reachable GameState.new
  | step {s : GameState} {a : Action} :
      Reachable s → a ∈ s.legal_actions → Reachable (s.next_state a)

/-- Explicit enumeration of the reachable states. -/
def reachableStates : List GameState :=
  [mkState [] Player.Player1,
   mkState [Action.Check] Player.Player2,
   mkState [Action.Bet] Player.Player2,
   mkState [Action.Check, Action.Bet] Player.Player1,
   { history := { actions := [Action.Check, Action.Check] },
     current_player := Player.Player1, terminal := true },
   { history := { actions := [Action.Bet, Action.Fold] },
     current_player := Player.Player1, terminal := true },
   { history := { actions := [Action.Bet, Action.Call] },
     current_player := Player.Player1, terminal := true },
   { history := { actions := [Action.Check, Action.Bet, Action.Fold] },
     current_player := Player.Player2, terminal := true },
   { history := { actions := [Action.Check, Action.Bet, Action.Call] },
     current_player := Player.Player2, terminal := true }]

/-- Histories at which cfr can create information-set nodes. -/
def nodeHistories : List (List Action) :=
  [[], [Action.Check], [Action.Bet], [Action.Check, Action.Bet]]

/-- Key sets of both accumulator maps agree exactly with the action list. -/
def NodeWF (n : CFRNode) : Prop :=
  ∀ a : Action,
    ((n.regret_sum a).isSome ↔ a ∈ n.actions) ∧ ((n.strategy_sum a).isSome ↔ a ∈ n.actions)

/-- Every node held in the store is well formed. -/
def StoreNodesWF (st : InfoSetMap) : Prop :=
  ∀ k n, st k = some n → NodeWF n

/-- Every node stored under an information-set key of this game carries exactly
the legal actions of the keyed history. -/
def StoreActionsWF (st : InfoSetMap) : Prop :=
  ∀ (c : Card) (h : List Action), h ∈ nodeHistories → ∀ n,
    st (make_info_set_key c.to_char (History.to_string { actions := h })) = some n →
    n.actions = (mkState h Player.Player1).legal_actions

/-- Store invariant maintained by training. -/
def Good (st : InfoSetMap) : Prop := StoreNodesWF st ∧ StoreActionsWF st

/-- The second store keeps every key that is present in the first. -/
def Mono (st st' : InfoSetMap) : Prop := ∀ k, (st k).isSome → (st' k).isSome

/-- Modelled from the spec wording of the cfr claim: the strategy-weighted sum
over the actions of the recursively computed child values, each child value
converted from Player1's perspective into the acting player's own perspective
before weighting, with the store threaded left to right. -/
def childWeightedSum (s : GameState) (card1 card2 : Card) (strategy : AMap) :
    List Action → InfoSetMap → Option (ℚ × InfoSetMap)
  | [], st => some (0, st)
  | a :: rest, st =>
    match cfr (s.next_state a) card1 card2 st with
    | none => none
    | some (v1, st') =>
      let own := match s.current_player with
        | Player.Player1 => v1
        | Player.Player2 => -v1
      match strategy a with
      | none => none
      | some prob =>
        match childWeightedSum s card1 card2 strategy rest st' with
        | none => none
        | some (acc, st2) => some (prob * own + acc, st2)

/-- Modelled from the spec wording of the cfr claim (C1): at a terminal state
cfr returns the payoff of the history text; otherwise it returns the
get_strategy-weighted sum of the child values, restored to Player1's
perspective by negation when Player2 acts. -/
def CfrSpec (s : GameState) (card1 card2 : Card) (st : InfoSetMap) : Prop :=
  if s.terminal then
    cfr s card1 card2 st =
      some (((get_payoff card1 card2 s.history.to_string : ℤ) : ℚ), st)
  else
    ∃ node strategy w st2 stFin,
      ensureNode st (infoKeyOf s card1 card2) s.legal_actions (infoKeyOf s card1 card2) =
        some node ∧
      node.get_strategy = some strategy ∧
      childWeightedSum s card1 card2 strategy s.legal_actions
        (ensureNode st (infoKeyOf s card1 card2) s.legal_actions) = some (w, st2) ∧
      cfr s card1 card2 st =
        some ((match s.current_player with
               | Player.Player1 => w
               | Player.Player2 => -w), stFin)

/-- Modelled from the spec: S, the sum of the positive parts of the accumulated
regrets over the node's actions. -/
def specS (n : CFRNode) : ℚ :=
  (n.actions.map (fun a => max ((n.regret_sum a).getD 0) 0)).sum

/-- Modelled from the spec: T, the sum of the accumulated strategy weights over
the node's actions. -/
def specT (n : CFRNode) : ℚ :=
  (n.actions.map (fun a => (n.strategy_sum a).getD 0)).sum

/-- Modelled from the spec: total probability mass of a returned distribution. -/
def AMap.total (m : AMap) : ℚ := ∑ a : Action, (m a).getD 0

/-- Node of the regret-matching example: regrets 3 and 1 over Check and Bet
(src/cfr.rs test test_get_strategy_with_regret). -/
def exampleRegretNode : CFRNode :=
  { CFRNode.new [Action.Check, Action.Bet] with
    regret_sum :=
      AMap.insert
        (AMap.insert (CFRNode.new [Action.Check, Action.Bet]).regret_sum Action.Check 3)
        Action.Bet 1 }

/-- Node with all-nonpositive regrets over Check and Bet. -/
def exampleNonposNode : CFRNode :=
  { CFRNode.new [Action.Check, Action.Bet] with
    regret_sum :=
      AMap.insert
        (AMap.insert (CFRNode.new [Action.Check, Action.Bet]).regret_sum Action.Check (-1))
        Action.Bet 0 }

/-- Node of the average-strategy example: strategy sums 60 and 40 over Check
and Bet (src/cfr.rs test test_get_average_strategy). -/
def exampleAvgNode : CFRNode :=
  { CFRNode.new [Action.Check, Action.Bet] with
    strategy_sum :=
      AMap.insert
        (AMap.insert (CFRNode.new [Action.Check, Action.Bet]).strategy_sum Action.Check 60)
        Action.Bet 40 }

instance nodeWFDecidable (n : CFRNode) : Decidable (NodeWF n) :=
  decidable_of_iff
    (∀ a : Action,
      ((n.regret_sum a).isSome ↔ a ∈ n.actions) ∧
      ((n.strategy_sum a).isSome ↔ a ∈ n.actions))
    Iff.rfl

theorem foldl_insert_lookup (acts : List Action) (m : AMap) (b : Action) :
    (acts.foldl (fun m a => AMap.insert m a 0) m) b = if b ∈ acts then some 0 else m b := by
  induction acts generalizing m with
  | nil => simp
  | cons a rest ih =>
    simp only [List.foldl_cons, ih, AMap.insert, List.mem_cons]
    by_cases hb : b ∈ rest
    · simp [hb]
    · by_cases hba : b = a <;> simp [hb, hba]

theorem CFRNode.new_regret (acts : List Action) (b : Action) :
    (CFRNode.new acts).regret_sum b = if b ∈ acts then some 0 else none := by
  simp [CFRNode.new, foldl_insert_lookup, AMap.empty]

theorem CFRNode.new_strategy (acts : List Action) (b : Action) :
    (CFRNode.new acts).strategy_sum b = if b ∈ acts then some 0 else none := by
  simp [CFRNode.new, foldl_insert_lookup, AMap.empty]

theorem CFRNode.new_wf (acts : List Action) : NodeWF (CFRNode.new acts) := by
  intro a
  constructor <;>
  · rw [show (CFRNode.new acts).actions = acts from rfl]
    by_cases h : a ∈ acts <;> simp [CFRNode.new_regret, CFRNode.new_strategy, h]

theorem posRegretSum_eq (rs : AMap) (acts : List Action)
    (hcov : ∀ a ∈ acts, (rs a).isSome) (acc : ℚ) :
    posRegretSum rs acts acc =
      some (acc + (acts.map (fun a => max ((rs a).getD 0) 0)).sum) := by
  induction acts generalizing acc with
  | nil => simp [posRegretSum]
  | cons a rest ih =>
    obtain ⟨r, hr⟩ := Option.isSome_iff_exists.mp (hcov a (by simp))
    simp only [posRegretSum, hr]
    rw [ih (fun b hb => hcov b (by simp [hb]))]
    simp [hr, add_assoc]

theorem strategySumTotal_eq (ss : AMap) (acts : List Action)
    (hcov : ∀ a ∈ acts, (ss a).isSome) (acc : ℚ) :
    strategySumTotal ss acts acc =
      some (acc + (acts.map (fun a => (ss a).getD 0)).sum) := by
  induction acts generalizing acc with
  | nil => simp [strategySumTotal]
  | cons a rest ih =>
    obtain ⟨r, hr⟩ := Option.isSome_iff_exists.mp (hcov a (by simp))
    simp only [strategySumTotal, hr]
    rw [ih (fun b hb => hcov b (by simp [hb]))]
    simp [hr, add_assoc]

theorem strategyLoop_eq (n : CFRNode) (S : ℚ) (acts : List Action)
    (hcov : ∀ a ∈ acts, (n.regret_sum a).isSome) (m : AMap) :
    ∃ m', strategyLoop n S acts m = some m' ∧
      (∀ a ∈ acts, m' a =
        some (if S > 0 then max ((n.regret_sum a).getD 0) 0 / S
              else 1 / (n.actions.length : ℚ))) ∧
      (∀ a, a ∉ acts → m' a = m a) := by
  induction acts generalizing m with
  | nil => exact ⟨m, by simp [strategyLoop], by simp, fun a _ => rfl⟩
  | cons a rest ih =>
    by_cases hS : S > 0
    · obtain ⟨r, hr⟩ := Option.isSome_iff_exists.mp (hcov a (by simp))
      obtain ⟨m', hm', hin, hout⟩ :=
        ih (fun b hb => hcov b (by simp [hb])) (AMap.insert m a (max r 0 / S))
      refine ⟨m', ?_, ?_, ?_⟩
      · simp only [strategyLoop, if_pos hS, hr]
        exact hm'
      · intro b hb
        rcases List.mem_cons.mp hb with hba | hbr
        · subst hba
          by_cases hbrest : b ∈ rest
          · exact hin b hbrest
          · rw [hout b hbrest]
            simp [AMap.insert, hS, hr]
        · exact hin b hbr
      · intro b hb
        have hba : ¬(b = a) := fun h => hb (by simp [h])
        have hbr : b ∉ rest := fun h => hb (by simp [h])
        rw [hout b hbr]
        simp [AMap.insert, hba]
    · obtain ⟨m', hm', hin, hout⟩ :=
        ih (fun b hb => hcov b (by simp [hb]))
          (AMap.insert m a (1 / (n.actions.length : ℚ)))
      refine ⟨m', ?_, ?_, ?_⟩
      · simp only [strategyLoop, if_neg hS]
        exact hm'
      · intro b hb
        rcases List.mem_cons.mp hb with hba | hbr
        · subst hba
          by_cases hbrest : b ∈ rest
          · exact hin b hbrest
          · rw [hout b hbrest]
            simp [AMap.insert, hS]
        · exact hin b hbr
      · intro b hb
        have hba : ¬(b = a) := fun h => hb (by simp [h])
        have hbr : b ∉ rest := fun h => hb (by simp [h])
        rw [hout b hbr]
        simp [AMap.insert, hba]

theorem avgLoop_eq (n : CFRNode) (S : ℚ) (acts : List Action)
    (hcov : ∀ a ∈ acts, (n.strategy_sum a).isSome) (m : AMap) :
    ∃ m', avgLoop n S acts m = some m' ∧
      (∀ a ∈ acts, m' a =
        some (if S > 0 then (n.strategy_sum a).getD 0 / S
              else 1 / (n.actions.length : ℚ))) ∧
      (∀ a, a ∉ acts → m' a = m a) := by
  induction acts generalizing m with
  | nil => exact ⟨m, by simp [avgLoop], by simp, fun a _ => rfl⟩
  | cons a rest ih =>
    by_cases hS : S > 0
    · obtain ⟨r, hr⟩ := Option.isSome_iff_exists.mp (hcov a (by simp))
      obtain ⟨m', hm', hin, hout⟩ :=
        ih (fun b hb => hcov b (by simp [hb])) (AMap.insert m a (r / S))
      refine ⟨m', ?_, ?_, ?_⟩
      · simp only [avgLoop, if_pos hS, hr]
        exact hm'
      · intro b hb
        rcases List.mem_cons.mp hb with hba | hbr
        · subst hba
          by_cases hbrest : b ∈ rest
          · exact hin b hbrest
          · rw [hout b hbrest]
            simp [AMap.insert, hS, hr]
        · exact hin b hbr
      · intro b hb
        have hba : ¬(b = a) := fun h => hb (by simp [h])
        have hbr : b ∉ rest := fun h => hb (by simp [h])
        rw [hout b hbr]
        simp [AMap.insert, hba]
    · obtain ⟨m', hm', hin, hout⟩ :=
        ih (fun b hb => hcov b (by simp [hb]))
          (AMap.insert m a (1 / (n.actions.length : ℚ)))
      refine ⟨m', ?_, ?_, ?_⟩
      · simp only [avgLoop, if_neg hS]
        exact hm'
      · intro b hb
        rcases List.mem_cons.mp hb with hba | hbr
        · subst hba
          by_cases hbrest : b ∈ rest
          · exact hin b hbrest
          · rw [hout b hbrest]
            simp [AMap.insert, hS]
        · exact hin b hbr
      · intro b hb
        have hba : ¬(b = a) := fun h => hb (by simp [h])
        have hbr : b ∉ rest := fun h => hb (by simp [h])
        rw [hout b hbr]
        simp [AMap.insert, hba]

theorem get_strategy_eq (n : CFRNode)
    (hcov : ∀ a ∈ n.actions, (n.regret_sum a).isSome) :
    ∃ strat, n.get_strategy = some strat ∧
      (∀ a ∈ n.actions, strat a =
        some (if specS n > 0 then max ((n.regret_sum a).getD 0) 0 / specS n
              else 1 / (n.actions.length : ℚ))) ∧
      (∀ a, a ∉ n.actions → strat a = none) := by
  obtain ⟨m', h1, h2, h3⟩ := strategyLoop_eq n (specS n) n.actions hcov AMap.empty
  refine ⟨m', ?_, h2, fun a ha => (h3 a ha).trans rfl⟩
  rw [CFRNode.get_strategy, posRegretSum_eq n.regret_sum n.actions hcov 0]
  simpa [specS] using h1

theorem get_average_strategy_eq (n : CFRNode)
    (hcov : ∀ a ∈ n.actions, (n.strategy_sum a).isSome) :
    ∃ avg, n.get_average_strategy = some avg ∧
      (∀ a ∈ n.actions, avg a =
        some (if specT n > 0 then (n.strategy_sum a).getD 0 / specT n
              else 1 / (n.actions.length : ℚ))) ∧
      (∀ a, a ∉ n.actions → avg a = none) := by
  obtain ⟨m', h1, h2, h3⟩ := avgLoop_eq n (specT n) n.actions hcov AMap.empty
  refine ⟨m', ?_, h2, fun a ha => (h3 a ha).trans rfl⟩
  rw [CFRNode.get_average_strategy, strategySumTotal_eq n.strategy_sum n.actions hcov 0]
  simpa [specT] using h1

theorem map_div_sum (f : Action → ℚ) (S : ℚ) (l : List Action) :
    (l.map (fun a => f a / S)).sum = (l.map f).sum / S := by
  induction l with
  | nil => simp
  | cons a rest ih => simp [ih, add_div]

theorem map_const_sum (c : ℚ) (l : List Action) :
    (l.map (fun _ => c)).sum = (l.length : ℚ) * c := by
  induction l with
  | nil => simp
  | cons a rest ih =>
    simp only [List.map_cons, List.sum_cons, ih, List.length_cons]
    push_cast
    ring

theorem total_eq_sum (m : AMap) (l : List Action) (hnd : l.Nodup)
    (hout : ∀ a, a ∉ l → m a = none) :
    AMap.total m = (l.map (fun a => (m a).getD 0)).sum := by
  have h1 : ∑ a in l.toFinset, (m a).getD 0 = ∑ a : Action, (m a).getD 0 :=
    Finset.sum_subset (Finset.subset_univ _) (fun x _ hx => by
      rw [hout x (by simpa using hx)]
      rfl)
  rw [AMap.total, ← h1, List.sum_toFinset _ hnd]

/-- C2: for a well-formed CFRNode with a non-empty action list, get_strategy
returns max(regret,0)/S per action when S > 0 and the uniform distribution when
S = 0; on regrets 3 and 1 over two actions it yields 3/4 and 1/4, and on
all-nonpositive regrets it yields 1/2 and 1/2. -/
theorem get_strategy_regret_matching :
    (∀ n : CFRNode, NodeWF n → n.actions ≠ [] →
      ∃ strat, n.get_strategy = some strat ∧
        (specS n > 0 → ∀ a ∈ n.actions,
          strat a = some (max ((n.regret_sum a).getD 0) 0 / specS n)) ∧
        (specS n = 0 → ∀ a ∈ n.actions,
          strat a = some (1 / (n.actions.length : ℚ)))) ∧
    (exampleRegretNode.get_strategy.map
        (fun st => (st Action.Check, st Action.Bet)) =
      some (some (3 / 4 : ℚ), some (1 / 4 : ℚ))) ∧
    (exampleNonposNode.get_strategy.map
        (fun st => (st Action.Check, st Action.Bet)) =
      some (some (1 / 2 : ℚ), some (1 / 2 : ℚ))) := by
  refine ⟨?_,
    by simp [exampleRegretNode, CFRNode.new, CFRNode.get_strategy, posRegretSum,
         strategyLoop, AMap.insert, AMap.empty] <;> norm_num [AMap.insert] <;> decide,
    by simp [exampleNonposNode, CFRNode.new, CFRNode.get_strategy, posRegretSum,
         strategyLoop, AMap.insert, AMap.empty] <;> norm_num [AMap.insert] <;> decide⟩
  intro n hwf hne
  obtain ⟨strat, h1, h2, h3⟩ := get_strategy_eq n (fun a ha => ((hwf a).1).mpr ha)
  refine ⟨strat, h1, ?_, ?_⟩
  · intro hS a ha
    rw [h2 a ha, if_pos hS]
  · intro hS0 a ha
    rw [h2 a ha, hS0]
    simp

theorem get_strategy_regret_matching_witness :
    NodeWF exampleRegretNode ∧ exampleRegretNode.actions ≠ [] ∧
    (∃ strat, exampleRegretNode.get_strategy = some strat ∧
      (specS exampleRegretNode > 0 → ∀ a ∈ exampleRegretNode.actions,
        strat a = some (max ((exampleRegretNode.regret_sum a).getD 0) 0 /
          specS exampleRegretNode)) ∧
      (specS exampleRegretNode = 0 → ∀ a ∈ exampleRegretNode.actions,
        strat a = some (1 / (exampleRegretNode.actions.length : ℚ)))) :=
  ⟨by decide, by decide,
    get_strategy_regret_matching.1 exampleRegretNode (by decide) (by decide)⟩

/-- C6: for a well-formed CFRNode with a non-empty duplicate-free action list
and any regret configuration, the distribution returned by get_strategy has
total mass exactly 1 and assigns a nonnegative probability to every action. -/
theorem get_strategy_prob_distribution (n : CFRNode) (hwf : NodeWF n)
    (hne : n.actions ≠ []) (hnd : n.actions.Nodup) :
    ∃ strat, n.get_strategy = some strat ∧ AMap.total strat = 1 ∧
      ∀ a ∈ n.actions, ∃ p, strat a = some p ∧ 0 ≤ p := by
  obtain ⟨strat, h1, h2, h3⟩ := get_strategy_eq n (fun a ha => ((hwf a).1).mpr ha)
  have hlen : (n.actions.length : ℚ) ≠ 0 := by
    simpa using fun h => hne (List.length_eq_zero.mp h)
  refine ⟨strat, h1, ?_, ?_⟩
  · rw [total_eq_sum strat n.actions hnd h3]
    have hmap : n.actions.map (fun a => (strat a).getD 0) =
        n.actions.map (fun a =>
          if specS n > 0 then max ((n.regret_sum a).getD 0) 0 / specS n
          else 1 / (n.actions.length : ℚ)) :=
      List.map_congr_left (fun a ha => by simp [h2 a ha])
    rw [hmap]
    by_cases hS : specS n > 0
    · simp only [if_pos hS]
      rw [map_div_sum (fun a => max ((n.regret_sum a).getD 0) 0) (specS n) n.actions]
      exact div_self (ne_of_gt hS)
    · simp only [if_neg hS]
      rw [map_const_sum]
      field_simp
  · intro a ha
    refine ⟨_, h2 a ha, ?_⟩
    by_cases hS : specS n > 0
    · rw [if_pos hS]
      exact div_nonneg (le_max_right _ _) (le_of_lt hS)
    · rw [if_neg hS]
      positivity

theorem get_strategy_prob_distribution_witness :
    NodeWF exampleRegretNode ∧ exampleRegretNode.actions ≠ [] ∧
    exampleRegretNode.actions.Nodup ∧
    (∃ strat, exampleRegretNode.get_strategy = some strat ∧
      AMap.total strat = 1 ∧
      ∀ a ∈ exampleRegretNode.actions, ∃ p, strat a = some p ∧ 0 ≤ p) :=
  ⟨by decide, by decide, by decide,
    get_strategy_prob_distribution exampleRegretNode (by decide) (by decide) (by decide)⟩

/-- C7: for a well-formed CFRNode with a non-empty action list,
get_average_strategy returns strategy_sum/T per action when T > 0 and the
uniform distribution otherwise; on strategy sums 60 and 40 it yields 0.6 and
0.4, and on all-zero sums it yields the uniform distribution. -/
theorem get_average_strategy_normalizes :
    (∀ n : CFRNode, NodeWF n → n.actions ≠ [] →
      ∃ avg, n.get_average_strategy = some avg ∧
        (specT n > 0 → ∀ a ∈ n.actions,
          avg a = some ((n.strategy_sum a).getD 0 / specT n)) ∧
        (¬specT n > 0 → ∀ a ∈ n.actions,
          avg a = some (1 / (n.actions.length : ℚ)))) ∧
    (exampleAvgNode.get_average_strategy.map
        (fun st => (st Action.Check, st Action.Bet)) =
      some (some (3 / 5 : ℚ), some (2 / 5 : ℚ))) ∧
    ((CFRNode.new [Action.Check, Action.Bet]).get_average_strategy.map
        (fun st => (st Action.Check, st Action.Bet)) =
      some (some (1 / 2 : ℚ), some (1 / 2 : ℚ))) := by
  refine ⟨?_,
    by simp [exampleAvgNode, CFRNode.new, CFRNode.get_average_strategy, strategySumTotal,
         avgLoop, AMap.insert, AMap.empty] <;> norm_num [AMap.insert] <;> decide,
    by simp [CFRNode.new, CFRNode.get_average_strategy, strategySumTotal,
         avgLoop, AMap.insert, AMap.empty] <;> norm_num [AMap.insert] <;> decide⟩
  intro n hwf hne
  obtain ⟨avg, h1, h2, h3⟩ := get_average_strategy_eq n (fun a ha => ((hwf a).2).mpr ha)
  refine ⟨avg, h1, ?_, ?_⟩
  · intro hT a ha
    rw [h2 a ha, if_pos hT]
  · intro hT a ha
    rw [h2 a ha, if_neg hT]

theorem get_average_strategy_normalizes_witness :
    NodeWF exampleAvgNode ∧ exampleAvgNode.actions ≠ [] ∧
    (∃ avg, exampleAvgNode.get_average_strategy = some avg ∧
      (specT exampleAvgNode > 0 → ∀ a ∈ exampleAvgNode.actions,
        avg a = some ((exampleAvgNode.strategy_sum a).getD 0 / specT exampleAvgNode)) ∧
      (¬specT exampleAvgNode > 0 → ∀ a ∈ exampleAvgNode.actions,
        avg a = some (1 / (exampleAvgNode.actions.length : ℚ)))) :=
  ⟨by decide, by decide,
    get_average_strategy_normalizes.1 exampleAvgNode (by decide) (by decide)⟩

/-- C10: on a CFRNode whose action list is empty, both strategy routines are
total: the normalizing sums are 0, the positive guard blocks any division, and
both return the empty distribution, whose total mass is 0 rather than 1. -/
theorem empty_actions_total_safe (n : CFRNode) (h : n.actions = []) :
    n.get_strategy = some AMap.empty ∧
    n.get_average_strategy = some AMap.empty ∧
    AMap.total AMap.empty = 0 ∧ AMap.total AMap.empty ≠ 1 := by
  refine ⟨?_, ?_, ?_, ?_⟩
  · simp [CFRNode.get_strategy, h, posRegretSum, strategyLoop]
  · simp [CFRNode.get_average_strategy, h, strategySumTotal, avgLoop]
  · simp [AMap.total, AMap.empty]
  · simp [AMap.total, AMap.empty]

theorem empty_actions_total_safe_witness :
    (CFRNode.new []).actions = [] ∧
    ((CFRNode.new []).get_strategy = some AMap.empty ∧
     (CFRNode.new []).get_average_strategy = some AMap.empty ∧
     AMap.total AMap.empty = 0 ∧ AMap.total AMap.empty ≠ 1) :=
  ⟨rfl, empty_actions_total_safe (CFRNode.new []) rfl⟩

/-- C5: get_payoff implements the Player1-perspective payoff table, with
showdown comparisons by card rank and 0 on every unrecognized history text. -/
theorem get_payoff_table (c1 c2 : Card) :
    get_payoff c1 c2 "Check-Check" = (if c1.rank > c2.rank then 1 else -1) ∧
    get_payoff c1 c2 "Bet-Fold" = 1 ∧
    get_payoff c1 c2 "Check-Bet-Fold" = -1 ∧
    get_payoff c1 c2 "Bet-Call" = (if c1.rank > c2.rank then 2 else -2) ∧
    get_payoff c1 c2 "Check-Bet-Call" = (if c1.rank > c2.rank then 2 else -2) ∧
    ∀ h : String,
      h ∉ ["Check-Check", "Bet-Fold", "Check-Bet-Fold", "Bet-Call", "Check-Bet-Call"] →
      get_payoff c1 c2 h = 0 := by
  refine ⟨rfl, rfl, rfl, rfl, rfl, ?_⟩
  intro h hm
  simp only [List.mem_cons, List.not_mem_nil, or_false, not_or] at hm
  obtain ⟨h1, h2, h3, h4, h5⟩ := hm
  unfold get_payoff
  split <;> simp_all

theorem get_payoff_table_witness :
    ("Foo" : String) ∉
      ["Check-Check", "Bet-Fold", "Check-Bet-Fold", "Bet-Call", "Check-Bet-Call"] ∧
    get_payoff Card.Jack Card.Queen "Foo" = 0 :=
  ⟨by decide, (get_payoff_table Card.Jack Card.Queen).2.2.2.2.2 "Foo" (by decide)⟩

/-- C9: the Check-Check showdown payoff is antisymmetric under swapping the two
players' distinct cards. -/
theorem payoff_antisymmetric (c1 c2 : Card) (h : c1 ≠ c2) :
    get_payoff c1 c2 "Check-Check" = -get_payoff c2 c1 "Check-Check" := by
  revert h
  cases c1 <;> cases c2 <;> decide

theorem payoff_antisymmetric_witness :
    Card.Jack ≠ Card.Queen ∧
    get_payoff Card.Jack Card.Queen "Check-Check" =
      -get_payoff Card.Queen Card.Jack "Check-Check" :=
  ⟨by decide, payoff_antisymmetric Card.Jack Card.Queen (by decide)⟩

/-- C4: legal_actions returns exactly the ordered action list determined by the
history on non-terminal states, and the empty list on terminal states and on
histories of any other shape. -/
theorem legal_actions_table (s : GameState) :
    (s.terminal = true → s.legal_actions = []) ∧
    (s.terminal = false →
      (s.history.actions = [] → s.legal_actions = [Action.Check, Action.Bet]) ∧
      (s.history.actions = [Action.Check] →
        s.legal_actions = [Action.Check, Action.Bet]) ∧
      (s.history.actions = [Action.Check, Action.Bet] →
        s.legal_actions = [Action.Call, Action.Fold]) ∧
      (s.history.actions = [Action.Bet] →
        s.legal_actions = [Action.Call, Action.Fold]) ∧
      (s.history.actions ∉
          ([[], [Action.Check], [Action.Check, Action.Bet], [Action.Bet]] :
            List (List Action)) →
        s.legal_actions = [])) := by
  constructor
  · intro ht
    simp [GameState.legal_actions, ht]
  · intro ht
    refine ⟨fun hl => by simp [GameState.legal_actions, ht, hl],
            fun hl => by simp [GameState.legal_actions, ht, hl],
            fun hl => by simp [GameState.legal_actions, ht, hl],
            fun hl => by simp [GameState.legal_actions, ht, hl], ?_⟩
    intro hl
    rcases hx : s.history.actions with _ | ⟨x, _ | ⟨y, _ | ⟨z, rest⟩⟩⟩
    · simp [hx] at hl
    · cases x <;> simp_all [GameState.legal_actions, ht, hx]
    · cases x <;> cases y <;> simp_all [GameState.legal_actions, ht, hx]
    · cases x <;> cases y <;> cases z <;> simp_all [GameState.legal_actions, ht, hx]

theorem legal_actions_table_witness :
    ({ history := { actions := [Action.Check, Action.Check] },
       current_player := Player.Player1, terminal := true } : GameState).terminal = true ∧
    ({ history := { actions := [Action.Check, Action.Check] },
       current_player := Player.Player1, terminal := true } : GameState).legal_actions = [] :=
  ⟨rfl, (legal_actions_table _).1 rfl⟩

theorem cfr_terminal (s : GameState) (c1 c2 : Card) (st : InfoSetMap)
    (ht : s.terminal = true) :
    cfr s c1 c2 st = some (((get_payoff c1 c2 s.history.to_string : ℤ) : ℚ), st) := by
  rw [cfr]
  simp [ht]

theorem reachable_mem (s : GameState) (hr : Reachable s) : s ∈ reachableStates := by
  induction hr with
  | base => decide
  | @step s a hr ha ih =>
    fin_cases ih <;> cases a <;> revert ha <;> decide

theorem info_key_inj (c c' : Card) (h h' : List Action)
    (hh : h ∈ nodeHistories) (hh' : h' ∈ nodeHistories)
    (he : make_info_set_key c.to_char (History.to_string { actions := h }) =
          make_info_set_key c'.to_char (History.to_string { actions := h' })) :
    c = c' ∧ h = h' := by
  fin_cases hh <;> fin_cases hh' <;> cases c <;> cases c' <;> revert he <;> decide

theorem insert_good (st : InfoSetMap) (hst : Good st) (c : Card) (h : List Action)
    (hh : h ∈ nodeHistories) (node : CFRNode) (hwf : NodeWF node)
    (hact : node.actions = (mkState h Player.Player1).legal_actions) :
    Good (InfoSetMap.insert st
      (make_info_set_key c.to_char (History.to_string { actions := h })) node) ∧
    Mono st (InfoSetMap.insert st
      (make_info_set_key c.to_char (History.to_string { actions := h })) node) := by
  refine ⟨⟨?_, ?_⟩, ?_⟩
  · intro k n hk
    by_cases hkk : k = make_info_set_key c.to_char (History.to_string { actions := h })
    · rw [InfoSetMap.insert, if_pos hkk] at hk
      exact (Option.some_inj.mp hk) ▸ hwf
    · rw [InfoSetMap.insert, if_neg hkk] at hk
      exact hst.1 k n hk
  · intro c' h' hh' n hk
    by_cases hkk : make_info_set_key c'.to_char (History.to_string { actions := h' }) =
        make_info_set_key c.to_char (History.to_string { actions := h })
    · obtain ⟨hc, hhh⟩ := info_key_inj c' c h' h hh' hh hkk
      rw [InfoSetMap.insert, if_pos hkk] at hk
      rw [← Option.some_inj.mp hk, hact, hhh]
    · rw [InfoSetMap.insert, if_neg hkk] at hk
      exact hst.2 c' h' hh' n hk
  · intro k hk
    rw [InfoSetMap.insert]
    split <;> simp_all

theorem ensureNode_good (st : InfoSetMap) (hst : Good st) (c : Card) (h : List Action)
    (hh : h ∈ nodeHistories) :
    ∃ node,
      (ensureNode st (make_info_set_key c.to_char (History.to_string { actions := h }))
          (mkState h Player.Player1).legal_actions)
        (make_info_set_key c.to_char (History.to_string { actions := h })) = some node ∧
      NodeWF node ∧ node.actions = (mkState h Player.Player1).legal_actions ∧
      Good (ensureNode st (make_info_set_key c.to_char (History.to_string { actions := h }))
        (mkState h Player.Player1).legal_actions) ∧
      Mono st (ensureNode st (make_info_set_key c.to_char (History.to_string { actions := h }))
        (mkState h Player.Player1).legal_actions) := by
  by_cases hk : (st (make_info_set_key c.to_char (History.to_string { actions := h }))).isSome
  · obtain ⟨node, hnode⟩ := Option.isSome_iff_exists.mp hk
    refine ⟨node, ?_, hst.1 _ node hnode, hst.2 c h hh node hnode, ?_, ?_⟩
    · rw [ensureNode, if_pos hk]
      exact hnode
    · rw [ensureNode, if_pos hk]
      exact hst
    · rw [ensureNode, if_pos hk]
      exact fun k hx => hx
  · obtain ⟨hgood, hmono⟩ := insert_good st hst c h hh
      (CFRNode.new (mkState h Player.Player1).legal_actions)
      (CFRNode.new_wf _) rfl
    refine ⟨CFRNode.new (mkState h Player.Player1).legal_actions, ?_, CFRNode.new_wf _, rfl, ?_, ?_⟩
    · rw [ensureNode, if_neg hk, InfoSetMap.insert, if_pos rfl]
    · rw [ensureNode, if_neg hk]
      exact hgood
    · rw [ensureNode, if_neg hk]
      exact hmono

theorem updateNode_ok (acts : List Action) :
    ∀ (node : CFRNode) (av : AMap) (nv : ℚ) (strat : AMap),
    (∀ a ∈ acts, (node.regret_sum a).isSome) →
    (∀ a ∈ acts, (node.strategy_sum a).isSome) →
    (∀ a ∈ acts, (av a).isSome) →
    (∀ a ∈ acts, (strat a).isSome) →
    ∃ node', updateNode node acts av nv strat = some node' ∧
      node'.actions = node.actions ∧
      (∀ b, (node'.regret_sum b).isSome ↔ (node.regret_sum b).isSome) ∧
      (∀ b, (node'.strategy_sum b).isSome ↔ (node.strategy_sum b).isSome) := by
  induction acts with
  | nil =>
    intro node av nv strat _ _ _ _
    exact ⟨node, rfl, rfl, fun b => Iff.rfl, fun b => Iff.rfl⟩
  | cons a rest ih =>
    intro node av nv strat h1 h2 h3 h4
    obtain ⟨avv, hav⟩ := Option.isSome_iff_exists.mp (h3 a (by simp))
    obtain ⟨rv, hrv⟩ := Option.isSome_iff_exists.mp (h1 a (by simp))
    obtain ⟨sv, hsv⟩ := Option.isSome_iff_exists.mp (h2 a (by simp))
    obtain ⟨pv, hpv⟩ := Option.isSome_iff_exists.mp (h4 a (by simp))
    obtain ⟨node', heq, hact, hrs, hss⟩ := ih
      { node with
        regret_sum := AMap.insert node.regret_sum a (rv + (avv - nv)),
        strategy_sum := AMap.insert node.strategy_sum a (sv + pv) }
      av nv strat
      (fun b hb => by
        simp only [AMap.insert]
        split <;> simp_all [h1 b (List.mem_cons_of_mem a hb)])
      (fun b hb => by
        simp only [AMap.insert]
        split <;> simp_all [h2 b (List.mem_cons_of_mem a hb)])
      (fun b hb => h3 b (by simp [hb]))
      (fun b hb => h4 b (by simp [hb]))
    refine ⟨node', ?_, hact, ?_, ?_⟩
    · simp only [updateNode, hav, hrv, hsv, hpv]
      exact heq
    · intro b
      rw [hrs b]
      by_cases hba : b = a
      · subst hba
        simp [AMap.insert, Option.isSome_iff_exists.mpr ⟨rv, hrv⟩]
      · simp [AMap.insert, hba]
    · intro b
      rw [hss b]
      by_cases hba : b = a
      · subst hba
        simp [AMap.insert, Option.isSome_iff_exists.mpr ⟨sv, hsv⟩]
      · simp [AMap.insert, hba]

theorem cfrLoop_to_cws (s : GameState) (c1 c2 : Card) (strat : AMap) :
    ∀ (acts : List Action) (hsub : ∀ b ∈ acts, b ∈ s.legal_actions)
      (av : AMap) (nv : ℚ) (st : InfoSetMap) (avO : AMap) (nvO : ℚ) (stO : InfoSetMap),
    cfrLoop s c1 c2 strat acts hsub av nv st = some (avO, nvO, stO) →
    ∃ w, childWeightedSum s c1 c2 strat acts st = some (w, stO) ∧ nvO = nv + w := by
  intro acts
  induction acts with
  | nil =>
    intro hsub av nv st avO nvO stO hl
    simp only [cfrLoop, Option.some_inj, Prod.mk.injEq] at hl
    obtain ⟨h1, h2, h3⟩ := hl
    refine ⟨0, ?_, ?_⟩
    · rw [childWeightedSum, h3]
    · rw [h2]
      ring
  | cons a rest ih =>
    intro hsub av nv st avO nvO stO hl
    rw [cfrLoop] at hl
    rcases hc : cfr (s.next_state a) c1 c2 st with _ | ⟨v1, st'⟩ <;> rw [hc] at hl
    · exact absurd hl (by simp)
    · rcases hp : strat a with _ | p <;> simp only [hp] at hl
      · exact absurd hl (by simp)
      · obtain ⟨w, hw, hnv⟩ := ih _ _ _ _ _ _ _ hl
        refine ⟨p * (match s.current_player with
                     | Player.Player1 => v1
                     | Player.Player2 => -v1) + w, ?_, ?_⟩
        · simp only [childWeightedSum, hc, hp, hw]
        · rw [hnv]
          ring
theorem cfrLoop_ok (s : GameState) (c1 c2 : Card) (strat : AMap)
    (hchild : ∀ a ∈ s.legal_actions, ∀ st, Good st →
      ∃ v st', cfr (s.next_state a) c1 c2 st = some (v, st') ∧ Good st' ∧ Mono st st')
    (hstrat : ∀ a ∈ s.legal_actions, (strat a).isSome) :
    ∀ (acts : List Action) (hsub : ∀ b ∈ acts, b ∈ s.legal_actions)
      (av : AMap) (nv : ℚ) (st : InfoSetMap), Good st →
    ∃ avO nvO stO,
      cfrLoop s c1 c2 strat acts hsub av nv st = some (avO, nvO, stO) ∧
      Good stO ∧ Mono st stO ∧
      (∀ b, (avO b).isSome ↔ (b ∈ acts ∨ (av b).isSome)) := by
  intro acts
  induction acts with
  | nil =>
    intro hsub av nv st hst
    exact ⟨av, nv, st, by rw [cfrLoop], hst, fun k hk => hk, by simp⟩
  | cons a rest ih =>
    intro hsub av nv st hst
    obtain ⟨v, st', hc, hst', hm⟩ := hchild a (hsub a (by simp)) st hst
    obtain ⟨p, hp⟩ := Option.isSome_iff_exists.mp (hstrat a (hsub a (by simp)))
    obtain ⟨avO, nvO, stO, hloop, hstO, hmO, hcov⟩ :=
      ih (fun b hb => hsub b (by simp [hb]))
        (AMap.insert av a (match s.current_player with
          | Player.Player1 => v
          | Player.Player2 => -v))
        (nv + p * (match s.current_player with
          | Player.Player1 => v
          | Player.Player2 => -v))
        st' hst'
    refine ⟨avO, nvO, stO, ?_, hstO, fun k hk => hmO k (hm k hk), ?_⟩
    · simp only [cfrLoop, hc, hp]
      exact hloop
    · intro b
      rw [hcov b]
      by_cases hba : b = a
      · subst hba
        simp [AMap.insert]
      · simp [AMap.insert, hba]

theorem cfr_step (c1 c2 : Card) (h : List Action) (p : Player) (hh : h ∈ nodeHistories)
    (hchild : ∀ a ∈ (mkState h p).legal_actions, ∀ st, Good st →
      ∃ v st', cfr ((mkState h p).next_state a) c1 c2 st = some (v, st') ∧
        Good st' ∧ Mono st st') :
    ∀ st, Good st →
      ∃ v st', cfr (mkState h p) c1 c2 st = some (v, st') ∧ Good st' ∧ Mono st st' ∧
        CfrSpec (mkState h p) c1 c2 st := by
  intro st hst
  obtain ⟨node, hnode, hnwf, hnact, hgood1, hmono1⟩ :=
    ensureNode_good st hst (currentCard (mkState h p) c1 c2) h hh
  have hnodeK : (ensureNode st (infoKeyOf (mkState h p) c1 c2)
      (mkState h p).legal_actions) (infoKeyOf (mkState h p) c1 c2) = some node := hnode
  have hgood1K : Good (ensureNode st (infoKeyOf (mkState h p) c1 c2)
      (mkState h p).legal_actions) := hgood1
  have hmono1K : Mono st (ensureNode st (infoKeyOf (mkState h p) c1 c2)
      (mkState h p).legal_actions) := hmono1
  obtain ⟨strat, hsteq, hstval, hstnone⟩ :=
    get_strategy_eq node (fun a ha => ((hnwf a).1).mpr ha)
  have hstrat_some : ∀ a ∈ (mkState h p).legal_actions, (strat a).isSome := by
    intro a ha
    have ha' : a ∈ node.actions := by rw [hnact]; exact ha
    rw [hstval a ha']
    rfl
  obtain ⟨avO, nvO, stO, hloop, hstO, hmonoO, hcov⟩ :=
    cfrLoop_ok (mkState h p) c1 c2 strat hchild hstrat_some
      (mkState h p).legal_actions (fun b hb => hb) AMap.empty 0
      (ensureNode st (infoKeyOf (mkState h p) c1 c2) (mkState h p).legal_actions) hgood1K
  have hsome2 : (stO (infoKeyOf (mkState h p) c1 c2)).isSome :=
    hmonoO _ (by rw [hnodeK]; rfl)
  obtain ⟨node2, hnode2⟩ := Option.isSome_iff_exists.mp hsome2
  have hn2wf : NodeWF node2 := hstO.1 _ node2 hnode2
  have hn2act : node2.actions = (mkState h Player.Player1).legal_actions :=
    hstO.2 (currentCard (mkState h p) c1 c2) h hh node2 hnode2
  obtain ⟨node3, hupd, hact3, hrs3, hss3⟩ :=
    updateNode_ok (mkState h p).legal_actions node2 avO nvO strat
      (fun a ha => ((hn2wf a).1).mpr (by rw [hn2act]; exact ha))
      (fun a ha => ((hn2wf a).2).mpr (by rw [hn2act]; exact ha))
      (fun a ha => (hcov a).mpr (Or.inl ha))
      hstrat_some
  have hwf3 : NodeWF node3 := by
    intro a
    constructor
    · rw [hrs3 a, hact3]
      exact (hn2wf a).1
    · rw [hss3 a, hact3]
      exact (hn2wf a).2
  have hact3' : node3.actions = (mkState h Player.Player1).legal_actions :=
    hact3.trans hn2act
  obtain ⟨hgoodF, hmonoF⟩ :=
    insert_good stO hstO (currentCard (mkState h p) c1 c2) h hh node3 hwf3 hact3'
  have hgoodFK : Good (InfoSetMap.insert stO (infoKeyOf (mkState h p) c1 c2) node3) :=
    hgoodF
  have hmonoFK : Mono stO (InfoSetMap.insert stO (infoKeyOf (mkState h p) c1 c2) node3) :=
    hmonoF
  have hcfr : cfr (mkState h p) c1 c2 st =
      some ((match (mkState h p).current_player with
             | Player.Player1 => nvO
             | Player.Player2 => -nvO),
            InfoSetMap.insert stO (infoKeyOf (mkState h p) c1 c2) node3) := by
    rw [cfr]
    rw [if_neg (by simp [mkState])]
    simp only [hnodeK, hsteq, hloop, hnode2, hupd]
  obtain ⟨w, hcws, hnv⟩ :=
    cfrLoop_to_cws (mkState h p) c1 c2 strat (mkState h p).legal_actions
      (fun b hb => hb) AMap.empty 0 _ avO nvO stO hloop
  have hw : w = nvO := by rw [hnv]; ring
  subst hw
  refine ⟨_, _, hcfr, hgoodFK, ?_, ?_⟩
  · exact fun k hk => hmonoFK k (hmonoO k (hmono1K k hk))
  · unfold CfrSpec
    rw [if_neg (by simp [mkState])]
    exact ⟨node, strat, w, stO, _, hnodeK, hsteq, hcws, hcfr⟩

theorem cfr_ok_CB (c1 c2 : Card) :
    ∀ st, Good st →
      ∃ v st', cfr (mkState [Action.Check, Action.Bet] Player.Player1) c1 c2 st =
          some (v, st') ∧ Good st' ∧ Mono st st' ∧
        CfrSpec (mkState [Action.Check, Action.Bet] Player.Player1) c1 c2 st := by
  refine cfr_step c1 c2 [Action.Check, Action.Bet] Player.Player1 (by decide) ?_
  intro a ha st hst
  have hl : (mkState [Action.Check, Action.Bet] Player.Player1).legal_actions =
      [Action.Call, Action.Fold] := rfl
  rw [hl] at ha
  fin_cases ha
  · exact ⟨_, st, cfr_terminal _ c1 c2 st rfl, hst, fun k hk => hk⟩
  · exact ⟨_, st, cfr_terminal _ c1 c2 st rfl, hst, fun k hk => hk⟩

theorem cfr_ok_B (c1 c2 : Card) :
    ∀ st, Good st →
      ∃ v st', cfr (mkState [Action.Bet] Player.Player2) c1 c2 st = some (v, st') ∧
        Good st' ∧ Mono st st' ∧
        CfrSpec (mkState [Action.Bet] Player.Player2) c1 c2 st := by
  refine cfr_step c1 c2 [Action.Bet] Player.Player2 (by decide) ?_
  intro a ha st hst
  have hl : (mkState [Action.Bet] Player.Player2).legal_actions =
      [Action.Call, Action.Fold] := rfl
  rw [hl] at ha
  fin_cases ha
  · exact ⟨_, st, cfr_terminal _ c1 c2 st rfl, hst, fun k hk => hk⟩
  · exact ⟨_, st, cfr_terminal _ c1 c2 st rfl, hst, fun k hk => hk⟩

theorem cfr_ok_C (c1 c2 : Card) :
    ∀ st, Good st →
      ∃ v st', cfr (mkState [Action.Check] Player.Player2) c1 c2 st = some (v, st') ∧
        Good st' ∧ Mono st st' ∧
        CfrSpec (mkState [Action.Check] Player.Player2) c1 c2 st := by
  refine cfr_step c1 c2 [Action.Check] Player.Player2 (by decide) ?_
  intro a ha st hst
  have hl : (mkState [Action.Check] Player.Player2).legal_actions =
      [Action.Check, Action.Bet] := rfl
  rw [hl] at ha
  fin_cases ha
  · exact ⟨_, st, cfr_terminal _ c1 c2 st rfl, hst, fun k hk => hk⟩
  · obtain ⟨v, st', hcfr, hg, hm, _⟩ := cfr_ok_CB c1 c2 st hst
    exact ⟨v, st', hcfr, hg, hm⟩

theorem cfr_ok_root (c1 c2 : Card) :
    ∀ st, Good st →
      ∃ v st', cfr (mkState [] Player.Player1) c1 c2 st = some (v, st') ∧
        Good st' ∧ Mono st st' ∧
        CfrSpec (mkState [] Player.Player1) c1 c2 st := by
  refine cfr_step c1 c2 [] Player.Player1 (by decide) ?_
  intro a ha st hst
  have hl : (mkState [] Player.Player1).legal_actions =
      [Action.Check, Action.Bet] := rfl
  rw [hl] at ha
  fin_cases ha
  · obtain ⟨v, st', hcfr, hg, hm, _⟩ := cfr_ok_C c1 c2 st hst
    exact ⟨v, st', hcfr, hg, hm⟩
  · obtain ⟨v, st', hcfr, hg, hm, _⟩ := cfr_ok_B c1 c2 st hst
    exact ⟨v, st', hcfr, hg, hm⟩

theorem updateNode_pres (acts : List Action) :
    ∀ (node : CFRNode) (av : AMap) (nv : ℚ) (strat : AMap) (node' : CFRNode),
    updateNode node acts av nv strat = some node' →
    node'.actions = node.actions ∧
    (∀ b, (node'.regret_sum b).isSome ↔ (node.regret_sum b).isSome) ∧
    (∀ b, (node'.strategy_sum b).isSome ↔ (node.strategy_sum b).isSome) := by
  induction acts with
  | nil =>
    intro node av nv strat node' hupd
    rw [updateNode] at hupd
    obtain rfl := Option.some_inj.mp hupd
    exact ⟨rfl, fun b => Iff.rfl, fun b => Iff.rfl⟩
  | cons a rest ih =>
    intro node av nv strat node' hupd
    rw [updateNode] at hupd
    rcases hav : av a with _ | avv <;> rw [hav] at hupd
    · exact absurd hupd (by simp)
    rcases hrv : node.regret_sum a with _ | rv <;> rw [hrv] at hupd
    · exact absurd hupd (by simp)
    rcases hsv : node.strategy_sum a with _ | sv <;> rw [hsv] at hupd
    · exact absurd hupd (by simp)
    rcases hpv : strat a with _ | pv <;> rw [hpv] at hupd
    · exact absurd hupd (by simp)
    obtain ⟨hact, hr, hs⟩ := ih _ _ _ _ _ hupd
    refine ⟨hact, ?_, ?_⟩
    · intro b
      rw [hr b]
      by_cases hba : b = a
      · subst hba
        simp [AMap.insert, Option.isSome_iff_exists.mpr ⟨rv, hrv⟩]
      · simp [AMap.insert, hba]
    · intro b
      rw [hs b]
      by_cases hba : b = a
      · subst hba
        simp [AMap.insert, Option.isSome_iff_exists.mpr ⟨sv, hsv⟩]
      · simp [AMap.insert, hba]

/-- C1: on every reachable state, with distinct cards and a well-formed store,
cfr returns the payoff of the history text at terminal states and otherwise the
get_strategy-weighted sum of the recursively computed child values, converted
into the acting player's perspective per child and restored to Player1's
perspective on return. -/
theorem cfr_returns_spec_value (s : GameState) (c1 c2 : Card) (st : InfoSetMap)
    (hr : Reachable s) (hne : c1 ≠ c2) (hst : Good st) : CfrSpec s c1 c2 st := by
  have hm := reachable_mem s hr
  fin_cases hm
  · obtain ⟨v, st', _, _, _, hspec⟩ := cfr_ok_root c1 c2 st hst
    exact hspec
  · obtain ⟨v, st', _, _, _, hspec⟩ := cfr_ok_C c1 c2 st hst
    exact hspec
  · obtain ⟨v, st', _, _, _, hspec⟩ := cfr_ok_B c1 c2 st hst
    exact hspec
  · obtain ⟨v, st', _, _, _, hspec⟩ := cfr_ok_CB c1 c2 st hst
    exact hspec
  · unfold CfrSpec
    rw [if_pos rfl]
    exact cfr_terminal _ c1 c2 st rfl
  · unfold CfrSpec
    rw [if_pos rfl]
    exact cfr_terminal _ c1 c2 st rfl
  · unfold CfrSpec
    rw [if_pos rfl]
    exact cfr_terminal _ c1 c2 st rfl
  · unfold CfrSpec
    rw [if_pos rfl]
    exact cfr_terminal _ c1 c2 st rfl
  · unfold CfrSpec
    rw [if_pos rfl]
    exact cfr_terminal _ c1 c2 st rfl

theorem cfr_returns_spec_value_witness :
    Reachable GameState.new ∧ Card.Jack ≠ Card.Queen ∧ Good InfoSetMap.empty ∧
    CfrSpec GameState.new Card.Jack Card.Queen InfoSetMap.empty := by
  have hgood : Good InfoSetMap.empty :=
    ⟨fun k n hk => by simp [InfoSetMap.empty] at hk,
     fun c h hh n hk => by simp [InfoSetMap.empty] at hk⟩
  exact ⟨Reachable.base, by decide, hgood,
    cfr_returns_spec_value GameState.new Card.Jack Card.Queen InfoSetMap.empty
      Reachable.base (by decide) hgood⟩

/-- C3: on every reachable state, terminal holds exactly on the five terminal
histories, the acting player flips on every transition, and Player1 is the
acting player exactly when the history length is even. -/
theorem reachable_state_invariants (s : GameState) (hr : Reachable s) :
    (s.terminal = true ↔ s.history.actions ∈ terminalHistories) ∧
    (∀ a : Action, (s.next_state a).current_player = s.current_player.other) ∧
    (s.current_player = Player.Player1 ↔ Even s.history.actions.length) := by
  have hm := reachable_mem s hr
  refine ⟨?_, ?_, ?_⟩
  · fin_cases hm <;> decide
  · intro a
    simp only [GameState.next_state]
    split <;> rfl
  · fin_cases hm <;> decide

theorem reachable_state_invariants_witness :
    Reachable GameState.new ∧
    ((GameState.new.terminal = true ↔
        GameState.new.history.actions ∈ terminalHistories) ∧
     (∀ a : Action, (GameState.new.next_state a).current_player =
        GameState.new.current_player.other) ∧
     (GameState.new.current_player = Player.Player1 ↔
        Even GameState.new.history.actions.length)) :=
  ⟨Reachable.base, reachable_state_invariants GameState.new Reachable.base⟩

/-- C8: CFRNode.new zero-initializes both accumulator maps over exactly the
action list, the cfr update step never inserts or removes an accumulator key,
and a successful cfr call on a reachable state keeps every stored node's key
sets equal to its action set. -/
theorem store_key_invariant :
    (∀ (acts : List Action) (a : Action), a ∈ acts →
      (CFRNode.new acts).regret_sum a = some 0 ∧
      (CFRNode.new acts).strategy_sum a = some 0) ∧
    (∀ acts : List Action, NodeWF (CFRNode.new acts)) ∧
    (∀ (node : CFRNode) (acts : List Action) (av : AMap) (nv : ℚ) (strat : AMap)
        (node' : CFRNode),
      updateNode node acts av nv strat = some node' →
      node'.actions = node.actions ∧
      (∀ b, (node'.regret_sum b).isSome ↔ (node.regret_sum b).isSome) ∧
      (∀ b, (node'.strategy_sum b).isSome ↔ (node.strategy_sum b).isSome)) ∧
    (∀ (s : GameState) (c1 c2 : Card) (st : InfoSetMap) (v : ℚ) (st' : InfoSetMap),
      Reachable s → Good st → cfr s c1 c2 st = some (v, st') → StoreNodesWF st') := by
  refine ⟨?_, ?_, ?_, ?_⟩
  · intro acts a ha
    rw [CFRNode.new_regret, CFRNode.new_strategy]
    simp [ha]
  · exact CFRNode.new_wf
  · intro node acts av nv strat node' hupd
    exact updateNode_pres acts node av nv strat node' hupd
  · intro s c1 c2 st v st' hr hst hcfr
    have hm := reachable_mem s hr
    fin_cases hm
    · obtain ⟨v2, st2, hcfr2, hg2, _, _⟩ := cfr_ok_root c1 c2 st hst
      rw [hcfr2] at hcfr
      obtain ⟨-, rfl⟩ := Prod.mk.injEq .. ▸ Option.some_inj.mp hcfr
      exact hg2.1
    · obtain ⟨v2, st2, hcfr2, hg2, _, _⟩ := cfr_ok_C c1 c2 st hst
      rw [hcfr2] at hcfr
      obtain ⟨-, rfl⟩ := Prod.mk.injEq .. ▸ Option.some_inj.mp hcfr
      exact hg2.1
    · obtain ⟨v2, st2, hcfr2, hg2, _, _⟩ := cfr_ok_B c1 c2 st hst
      rw [hcfr2] at hcfr
      obtain ⟨-, rfl⟩ := Prod.mk.injEq .. ▸ Option.some_inj.mp hcfr
      exact hg2.1
    · obtain ⟨v2, st2, hcfr2, hg2, _, _⟩ := cfr_ok_CB c1 c2 st hst
      rw [hcfr2] at hcfr
      obtain ⟨-, rfl⟩ := Prod.mk.injEq .. ▸ Option.some_inj.mp hcfr
      exact hg2.1
    · rw [cfr_terminal _ c1 c2 st rfl] at hcfr
      obtain ⟨-, rfl⟩ := Prod.mk.injEq .. ▸ Option.some_inj.mp hcfr
      exact hst.1
    · rw [cfr_terminal _ c1 c2 st rfl] at hcfr
      obtain ⟨-, rfl⟩ := Prod.mk.injEq .. ▸ Option.some_inj.mp hcfr
      exact hst.1
    · rw [cfr_terminal _ c1 c2 st rfl] at hcfr
      obtain ⟨-, rfl⟩ := Prod.mk.injEq .. ▸ Option.some_inj.mp hcfr
      exact hst.1
    · rw [cfr_terminal _ c1 c2 st rfl] at hcfr
      obtain ⟨-, rfl⟩ := Prod.mk.injEq .. ▸ Option.some_inj.mp hcfr
      exact hst.1
    · rw [cfr_terminal _ c1 c2 st rfl] at hcfr
      obtain ⟨-, rfl⟩ := Prod.mk.injEq .. ▸ Option.some_inj.mp hcfr
      exact hst.1

theorem store_key_invariant_witness :
    Action.Check ∈ [Action.Check] ∧
    ((CFRNode.new [Action.Check]).regret_sum Action.Check = some 0 ∧
     (CFRNode.new [Action.Check]).strategy_sum Action.Check = some 0) :=
  ⟨by decide, store_key_invariant.1 [Action.Check] Action.Check (by decide)⟩

end KuhnCFR
